import Mathlib

/-!
Verification of the crunchbase fuzzy string matching pipeline.

The development shallowly embeds the Python sources (`preprocessor.py`,
`matcher.py`, `postprocess.py`) into Lean:

* strings are modelled over their ASCII fragment as `List Char` with
  executable helpers mirroring the Python string operations used by the code;
* the external `tldextract` library is modelled from its source semantics
  (`lenient_netloc` / `_schemeless_url` / suffix lookup), with the public
  suffix list restricted to the suffixes relevant here (`com`, `org`, `net`,
  `uk`, `co.uk`), no wildcard rules, no punycode and no IPv6/IPv4 special
  cases;
* `pandas` data frames are modelled as column-name lists plus rows of
  optional string cells; `float(inf)` sentinels become `none : Option Nat`.
-/

/-! ## ASCII character and list-of-char helpers -/

/-- Uppercase-to-lowercase letter table (ASCII fragment of Python `str.lower`). -/
def lowerPairs : List (Char × Char) :=
  [('A', 'a'), ('B', 'b'), ('C', 'c'), ('D', 'd'), ('E', 'e'), ('F', 'f'),
   ('G', 'g'), ('H', 'h'), ('I', 'i'), ('J', 'j'), ('K', 'k'), ('L', 'l'),
   ('M', 'm'), ('N', 'n'), ('O', 'o'), ('P', 'p'), ('Q', 'q'), ('R', 'r'),
   ('S', 's'), ('T', 't'), ('U', 'u'), ('V', 'v'), ('W', 'w'), ('X', 'x'),
   ('Y', 'y'), ('Z', 'z')]

/-- Model of Python `str.lower` on a single character (ASCII). -/
def lowerChar (c : Char) : Char :=
  ((lowerPairs.find? (fun p => p.1 == c)).map Prod.snd).getD c

/-- Model of Python `str.lower` on a character list. -/
def lowerL (l : List Char) : List Char := l.map lowerChar

/-- Model of Python `str.lower` on a string. -/
def pyLower (s : String) : String := ⟨lowerL s.toList⟩

/-- Characters kept by `re.sub(r'[^\w\-]', '', _)`: ASCII word characters
(letters, digits, underscore) and the hyphen. -/
def isKeptChar (c : Char) : Bool := c.isAlphanum || c == '_' || c == '-'

/-- Characters allowed in a URL scheme by tldextract. -/
def isSchemeChar (c : Char) : Bool := c.isAlpha || c.isDigit || c == '+' || c == '-' || c == '.'

/-- Python `s.partition(x)[0]`: the part of the list before the first `x`. -/
def takeUntilChar (x : Char) : List Char → List Char
  | [] => []
  | c :: cs => if c == x then [] else c :: takeUntilChar x cs

/-- Python `s.rpartition(x)[-1]`: the part of the list after the last `x`
(the whole list if `x` is absent). -/
def afterLastChar (x : Char) (l : List Char) : List Char :=
  (l.reverse.takeWhile (fun c => !(c == x))).reverse

/-- Python `s.strip()` (whitespace at both ends). -/
def stripEnds (l : List Char) : List Char :=
  ((l.dropWhile Char.isWhitespace).reverse.dropWhile Char.isWhitespace).reverse

/-- Python `s.rstrip('.')` (ASCII fragment of the tldextract root-label strip). -/
def rstripDots (l : List Char) : List Char :=
  (l.reverse.dropWhile (fun c => c == '.')).reverse

/-- Python `s.rstrip('/')`. -/
def rstripSlashes (l : List Char) : List Char :=
  (l.reverse.dropWhile (fun c => c == '/')).reverse

/-- Boolean prefix test on character lists. -/
def isPrefixB : List Char → List Char → Bool
  | [], _ => true
  | _ :: _, [] => false
  | p :: ps, c :: cs => p == c && isPrefixB ps cs

/-- Python `pat in s`: substring occurrence test. -/
def containsSub (pat : List Char) : List Char → Bool
  | [] => isPrefixB pat []
  | c :: cs => isPrefixB pat (c :: cs) || containsSub pat cs

/-- Python `s.find(pat)`: index of the first occurrence of `pat`. -/
def findSubIdx (pat : List Char) : List Char → Option Nat
  | [] => if isPrefixB pat [] then some 0 else none
  | c :: cs =>
    if isPrefixB pat (c :: cs) then some 0
    else (findSubIdx pat cs).map (· + 1)

/-- Python `s.split(sep)` for a one-character separator. -/
def splitC (sep : Char) : List Char → List (List Char)
  | [] => [[]]
  | c :: cs =>
    if c == sep then [] :: splitC sep cs
    else (splitC sep cs).modifyHead (c :: ·)

/-- Python `'.'.join(parts)`. -/
def joinDot : List (List Char) → List Char
  | [] => []
  | [x] => x
  | x :: xs => x ++ '.' :: joinDot xs

/-- Python `s.split('/')[-1]`. -/
def lastSeg (l : List Char) : List Char := (splitC '/' l).getLastD []

/-- Hexadecimal digit table. -/
def hexPairs : List (Char × Nat) :=
  [('0', 0), ('1', 1), ('2', 2), ('3', 3), ('4', 4), ('5', 5), ('6', 6),
   ('7', 7), ('8', 8), ('9', 9), ('a', 10), ('b', 11), ('c', 12), ('d', 13),
   ('e', 14), ('f', 15), ('A', 10), ('B', 11), ('C', 12), ('D', 13),
   ('E', 14), ('F', 15)]

/-- Value of a hexadecimal digit, if any. -/
def hexDigitVal (c : Char) : Option Nat :=
  ((hexPairs.find? (fun p => p.1 == c)).map Prod.snd)

/-- Model of `urllib.parse.unquote` (ASCII fragment): decode `%XX` escapes,
leaving invalid escapes untouched. -/
def unquoteL : List Char → List Char
  | '%' :: h1 :: h2 :: rest =>
    match hexDigitVal h1, hexDigitVal h2 with
    | some a, some b => Char.ofNat (16 * a + b) :: unquoteL rest
    | _, _ => '%' :: unquoteL (h1 :: h2 :: rest)
  | c :: cs => c :: unquoteL cs
  | [] => []

/-- Model of `re.sub(r'(\?.*)|(\/about.*)', '', url)`: truncate at the first
occurrence of `?` or of the substring `/about`. -/
def truncAtQA : List Char → List Char
  | [] => []
  | c :: cs =>
    if c == '?' then []
    else if c == '/' && isPrefixB ("about".toList) cs then []
    else c :: truncAtQA cs

/-! ## Model of the tldextract library (restricted) -/

/-- Result of tldextract URL parsing. -/
structure Extracted where
  subdomain : List Char
  domain : List Char
  suffix : List Char
deriving DecidableEq

/-- Model of `tldextract.remote._schemeless_url`. -/
def schemelessUrl (l : List Char) : List Char :=
  match findSubIdx ['/', '/'] l with
  | none => l
  | some 0 => l.drop 2
  | some ds =>
    if ds < 2 then l
    else if !(l.getD (ds - 1) ' ' == ':') then l
    else if !((l.take (ds - 1)).all isSchemeChar) then l
    else l.drop (ds + 2)

/-- Model of `tldextract.remote.lenient_netloc` (IPv6 brackets omitted). -/
def lenientNetloc (url : List Char) : List Char :=
  let afterUserinfo :=
    afterLastChar '@' (takeUntilChar '#' (takeUntilChar '?' (takeUntilChar '/' (schemelessUrl url))))
  rstripDots (stripEnds (takeUntilChar ':' afterUserinfo))

/-- Public suffix list restricted to the suffixes exercised here, as label
lists in lowercase (no wildcard rules). -/
def pslSuffixes : List (List (List Char)) :=
  [["com".toList], ["org".toList], ["net".toList], ["uk".toList],
   ["co".toList, "uk".toList]]

/-- Number of labels of the longest public suffix matching the tail of the
label list, case-insensitively (tldextract `suffix_index` lookup). -/
def suffixLen (labels : List (List Char)) : Nat :=
  ((pslSuffixes.filter (fun e => e.isSuffixOf (labels.map lowerL))).map List.length).foldr Nat.max 0

/-- Model of `tldextract.extract`: subdomain / domain / suffix split of the
URL host, preserving the original case of the labels. -/
def tldExtractL (url : List Char) : Extracted :=
  let labels := splitC '.' (lenientNetloc url)
  let si := labels.length - suffixLen labels
  { suffix := joinDot (labels.drop si)
    domain := if si == 0 then [] else labels.getD (si - 1) []
    subdomain := if 2 ≤ si then joinDot (labels.take (si - 1)) else [] }

/-! ## Model of `preprocessor.URLPreprocessor` -/

/-- The `country_codes` set from `URLPreprocessor._initialize_common_terms`. -/
def countryCodesList : List String :=
  ["ac", "ad", "ae", "af", "ag", "ai", "al", "am", "ao", "aq", "ar", "as",
   "at", "au", "aw", "ax", "az", "ba", "bb", "bd", "be", "bf", "bg", "bh",
   "bi", "bj", "bl", "bm", "bn", "bo", "bq", "br", "bs", "bt", "bv", "bw",
   "by", "bz", "ca", "cc", "cd", "cf", "cg", "ch", "ci", "ck", "cl", "cm",
   "cn", "co", "cr", "cu", "cv", "cw", "cx", "cy", "cz", "de", "dj", "dk",
   "dm", "do", "dz", "ec", "ee", "eg", "eh", "er", "es", "et", "eu", "fi",
   "fj", "fk", "fm", "fo", "fr", "ga", "gb", "gd", "ge", "gf", "gg", "gh",
   "gi", "gl", "gm", "gn", "gp", "gq", "gr", "gs", "gt", "gu", "gw", "gy",
   "hk", "hm", "hn", "hr", "ht", "hu", "id", "ie", "il", "im", "in", "io",
   "iq", "ir", "is", "it", "je", "jm", "jo", "jp", "ke", "kg", "kh", "ki",
   "km", "kn", "kp", "kr", "kw", "ky", "kz", "la", "lb", "lc", "li", "lk",
   "lr", "ls", "lt", "lu", "lv", "ly", "ma", "mc", "md", "me", "mf", "mg",
   "mh", "mk", "ml", "mm", "mn", "mo", "mp", "mq", "mr", "ms", "mt", "mu",
   "mv", "mw", "mx", "my", "mz", "na", "nc", "ne", "nf", "ng", "ni", "nl",
   "no", "np", "nr", "nu", "nz", "om", "pa", "pe", "pf", "pg", "ph", "pk",
   "pl", "pm", "pn", "pr", "ps", "pt", "pw", "py", "qa", "re", "ro", "rs",
   "ru", "rw", "sa", "sb", "sc", "sd", "se", "sg", "sh", "si", "sk", "sl",
   "sm", "sn", "so", "sr", "ss", "st", "sv", "sx", "sy", "sz", "tc", "td",
   "tf", "tg", "th", "tj", "tk", "tl", "tm", "tn", "to", "tr", "tt", "tv",
   "tw", "tz", "ua", "ug", "uk", "us", "uy", "uz", "va", "vc", "ve", "vg",
   "vi", "vn", "vu", "wf", "ws", "ye", "yt", "za", "zm", "zw"]

/-- The `common_suffixes` set from `extract_domain_and_company`. -/
def commonSuffixesList : List String := ["business", "webflow", "site", "com"]

/-- The `common_prefixes` list from `extract_domain_and_company`. -/
def commonPrefixesList : List String :=
  ["www", "web", "corp", "corporate", "about", "info", "shop", "company"]

/-- The social/registry host names special-cased at line 109 of
`preprocessor.py`. -/
def socialHostsList : List String := ["facebook", "zaubacorp", "linkedin"]

/-- Model of `re.sub(r'^https?://http//', 'http://', url)`. -/
def fixSchemeL (url : List Char) : List Char :=
  if isPrefixB ("http://http//".toList) url then ("http://".toList) ++ url.drop 13
  else if isPrefixB ("https://http//".toList) url then ("http://".toList) ++ url.drop 14
  else url

/-- Model of `URLPreprocessor.preprocess_linkedin_url`. -/
def preprocessLinkedinUrlL (url : List Char) : List Char :=
  let u := unquoteL (truncAtQA url)
  let entity :=
    if containsSub ("/company/".toList) u then lastSeg (rstripSlashes u)
    else if containsSub ("/in/".toList) u then lastSeg (rstripSlashes u)
    else u
  (lowerL entity).filter isKeptChar

/-- The standard (non social-host) path of `extract_domain_and_company`:
compose `domain.suffix`, optionally keep the subdomain for country-code or
platform domains, drop boilerplate dot-segments, lowercase. -/
def stdCompanyName (e : Extracted) : List Char :=
  let full := e.domain ++ '.' :: e.suffix
  let cname :=
    if !e.subdomain.isEmpty &&
        ((countryCodesList.map String.toList).contains e.domain ||
         (commonSuffixesList.map String.toList).contains e.domain)
    then e.subdomain ++ '.' :: full
    else full
  let cleaned :=
    (splitC '.' cname).filter
      (fun p => !((commonPrefixesList.map String.toList).contains (lowerL p)))
  lowerL (joinDot cleaned)

/-- Model of `URLPreprocessor.extract_domain_and_company` on character lists. -/
def extractL (url0 : List Char) : List Char :=
  let url := fixSchemeL url0
  let e := tldExtractL url
  if (socialHostsList.map String.toList).contains e.domain then
    let lp := preprocessLinkedinUrlL url
    if !lp.isEmpty then lp else stdCompanyName e
  else stdCompanyName e

/-- Model of `URLPreprocessor.extract_domain_and_company`. -/
def extract_domain_and_company (url : String) : String := ⟨extractL url.toList⟩

/-- Model of `URLPreprocessor.preprocess_linkedin_url`. -/
def preprocess_linkedin_url (url : String) : String := ⟨preprocessLinkedinUrlL url.toList⟩

/-! ## Model of the matching strategies (`process_companys`, `find_best_match_with_distance_poly`) -/

/-- The `match_type` argument of `process_companys`. -/
inductive MatchType where
  | exact
  | fuzzy
  | unspecified
deriving DecidableEq

/-- Levenshtein edit distance between two strings with unit insert, delete
and substitute costs, modelling `polyleven.levenshtein`. -/
def lev (a b : String) : Nat :=
  levenshtein Levenshtein.defaultCost a.toList b.toList

/-- Comparison `dist < min_distance` where `none` models the initial
`float(inf)`. -/
def ltInf (d : Nat) : Option Nat → Bool
  | none => true
  | some m => d < m

/-- Loop of `find_best_match_with_distance_poly`, carrying `best_match` and
`min_distance` (`none` models `None` / `float(inf)`). -/
def findBestGo (cd : String) : List String → Option String → Option Nat → Option String × Option Nat
  | [], best, m => (best, m)
  | c :: rest, best, m =>
    if ltInf (lev cd c) m then findBestGo cd rest (some c) (some (lev cd c))
    else findBestGo cd rest best m

/-- Model of `URLPreprocessor.find_best_match_with_distance_poly`. -/
def find_best_match_with_distance_poly (cd : String) (crm : List String) :
    Option String × Option Nat :=
  findBestGo cd crm none none

/-- Model of `URLPreprocessor.process_companys`. -/
def process_companys (crm cd : List String) (mt : MatchType) :
    List (String × Option String × Option Nat) :=
  if mt = MatchType.exact then
    crm.map (fun item =>
      if cd.contains item then (item, some item, some 0) else (item, none, none))
  else
    crm.map (fun c =>
      let r := find_best_match_with_distance_poly c cd
      (c, r.1, r.2))

/-! ## Record-level model of `Matcher.match_companies` -/

/-- A record seen by the matcher: identifier, URL field, derived company key. -/
structure CompanyRec where
  id : String
  url : String
  key : String
deriving DecidableEq

/-- A matched row as persisted by `match_companies` (column selection at
line 143 of `matcher.py`). -/
structure MatchPair where
  id1 : String
  id2 : String
  url1 : String
  url2 : String
  key1 : String
  key2 : String
deriving DecidableEq

/-- Model of `Matcher.match_companies`: annotate each left record with its
exact-match key via `process_companys`, then inner-join with the right
records on that key (`pd.merge(df1, df2, left_on='exact_match',
right_on=company_col2)`). -/
def match_companies (left right : List CompanyRec) : List MatchPair :=
  let results := process_companys (left.map (fun l => l.key))
    (right.map (fun r => r.key)) MatchType.exact
  let annotated := left.zip (results.map (fun t => t.2.1))
  annotated.flatMap (fun lm =>
    (right.filter (fun r => lm.2 == some r.key)).map (fun r =>
      ⟨lm.1.id, r.id, lm.1.url, r.url, lm.1.key, r.key⟩))

/-- Model of `matcher.py` line 229: the unmatched table (identifier and URL
of the left records whose identifier is absent from the matched
identifiers). -/
def unmatched_records (left : List CompanyRec) (matched : List MatchPair) :
    List (String × String) :=
  (left.filter (fun l => !((matched.map (fun p => p.id1)).contains l.id))).map
    (fun l => (l.id, l.url))

/-! ## Model of one run of `Matcher.process` -/

/-- A raw input row (identifier and URL fields, possibly null). -/
structure RawRec where
  id : Option String
  url : Option String
deriving DecidableEq

/-- Null filtering of `load_clean_and_rename_dataframe` (`dropna` on the
identifier and URL columns). -/
def dropNulls (l : List RawRec) : List (String × String) :=
  l.filterMap (fun r =>
    match r.id, r.url with
    | some i, some u => some (i, u)
    | _, _ => none)

/-- Model of `Matcher.load_clean_and_rename_dataframe` on an in-memory
table: the raw-empty check, then null filtering. -/
def load_clean (raw : List RawRec) : Except String (List (String × String)) :=
  if raw.isEmpty then Except.error ("The loaded DataFrame is empty.")
  else Except.ok (dropNulls raw)

/-- Model of `Matcher.preprocess_urls` (error when the frame is empty, else
company-key annotation via `extract_domain_and_company`). -/
def preprocess_recs (recs : List (String × String)) : Except String (List CompanyRec) :=
  if recs.isEmpty then Except.error ("Input DataFrame is None or empty.")
  else Except.ok (recs.map (fun r => ⟨r.1, r.2, extract_domain_and_company r.2⟩))

/-- Model of the emptiness guard of `Matcher.match_companies` (the spec
taxonomy's `EmptyInputError`, a `ValueError` in the code). -/
def match_companies_checked (l r : List CompanyRec) : Except String (List MatchPair) :=
  if l.isEmpty || r.isEmpty then
    Except.error ("One or both input DataFrames are None or empty.")
  else Except.ok (match_companies l r)

/-- Model of `Matcher.process` up to `save_results`: either the matched and
unmatched collections, or the first error raised (load left, load right,
preprocess left, preprocess right, match — in source order). -/
def process_result (raw1 raw2 : List RawRec) :
    Except String (List MatchPair × List (String × String)) :=
  match load_clean raw1 with
  | Except.error e => Except.error e
  | Except.ok f1 =>
    match load_clean raw2 with
    | Except.error e => Except.error e
    | Except.ok f2 =>
      match preprocess_recs f1 with
      | Except.error e => Except.error e
      | Except.ok d1 =>
        match preprocess_recs f2 with
        | Except.error e => Except.error e
        | Except.ok d2 =>
          match match_companies_checked d1 d2 with
          | Except.error e => Except.error e
          | Except.ok m => Except.ok (m, unmatched_records d1 m)

/-- One persisted artifact of a matching operation. -/
inductive FileOut where
  | matchedFile (rows : List MatchPair)
  | unmatchedFile (rows : List (String × String))
deriving DecidableEq

/-- Model of `Matcher.save_results`: nothing is written when both frames are
empty (the internal `ValueError`), else both files are written. -/
def save_results (m : List MatchPair) (u : List (String × String)) : List FileOut :=
  if m.isEmpty && u.isEmpty then []
  else [FileOut.matchedFile m, FileOut.unmatchedFile u]

/-- Files written by one run of `Matcher.process`: on any error the
operation is abandoned with no output. -/
def process_writes (raw1 raw2 : List RawRec) : List FileOut :=
  match process_result raw1 raw2 with
  | Except.ok mu => save_results mu.1 mu.2
  | Except.error _ => []

/-! ## Model of `postprocess.process_matched_output` -/

/-- Grouping attribute: the value in the last column of a row. -/
def lastVal (r : List String) : String := r.getLastD ""

/-- Number of rows of `t` whose last-column value equals `k`. -/
def keyCount (t : List (List String)) (k : String) : Nat :=
  (t.filter (fun r => lastVal r == k)).length

/-- Model of `df[df.duplicated(subset=[last_column], keep=False)]`: the rows
whose last-column value occurs at least twice in the table. -/
def dupRows (t : List (List String)) : List (List String) :=
  t.filter (fun r => decide (2 ≤ keyCount t (lastVal r)))

/-- Model of `df.drop_duplicates(subset=[last_column], keep=False)`: the
rows whose last-column value occurs exactly once in the table. -/
def nonDupRows (t : List (List String)) : List (List String) :=
  t.filter (fun r => keyCount t (lastVal r) == 1)

/-- Executable lexicographic comparison of character lists by code point. -/
def charListLe : List Char → List Char → Bool
  | [], _ => true
  | _ :: _, [] => false
  | a :: as, b :: bs => if a == b then charListLe as bs else decide (a.toNat < b.toNat)

/-- Model of `duplicates.sort_values(by=[last_column])`: the duplicate rows
sorted by the grouping attribute. -/
def dupRowsSorted (t : List (List String)) : List (List String) :=
  (dupRows t).insertionSort
    (fun a b => charListLe (lastVal a).toList (lastVal b).toList = true)

/-! ## Data-frame model for the key-annotation claim -/

/-- A data-frame cell: a string or a null. -/
abbrev Cell := Option String

/-- A pandas data frame: column names plus positional rows. -/
structure Df where
  cols : List String
  rows : List (List Cell)
deriving DecidableEq

/-- Python `str(cell)` as applied by `astype(str)` (`str(nan)` is `"nan"`). -/
def cellStr : Cell → String
  | some s => s
  | none => "nan"

/-- Column assignment `df[name] = vals`: overwrite in place when the column
exists, else append it. -/
def setColVals (df : Df) (name : String) (vals : List Cell) : Df :=
  if df.cols.contains name then
    { cols := df.cols
      rows := (df.rows.zip vals).map (fun rv => rv.1.set (df.cols.indexOf name) rv.2) }
  else
    { cols := df.cols ++ [name]
      rows := (df.rows.zip vals).map (fun rv => rv.1 ++ [rv.2]) }

/-- Value of a row at the position of column `name`. -/
def colVal (df : Df) (name : String) (r : List Cell) : Cell :=
  r.getD (df.cols.indexOf name) none

/-- Model of `Matcher.preprocess_urls`: cast the URL column to strings, then
apply `extract_domain_and_company` into the company column. -/
def preprocess_urls_df (df : Df) (urlCol companyCol : String) : Df :=
  let df1 := setColVals df urlCol (df.rows.map (fun r => some (cellStr (colVal df urlCol r))))
  setColVals df1 companyCol
    (df1.rows.map (fun r => some (extract_domain_and_company (cellStr (colVal df1 urlCol r)))))

/-- Model of `matcher.py` line 137: the `exact_match` column assignment that
`match_companies` performs on its first argument. -/
def add_exact_match (df1 df2 : Df) (c1 c2 : String) : Df :=
  let results := process_companys
    (df1.rows.map (fun r => cellStr (colVal df1 c1 r)))
    (df2.rows.map (fun r => cellStr (colVal df2 c2 r))) MatchType.exact
  setColVals df1 ("exact_match") (results.map (fun t => t.2.1))

/-- The two input tables as they stand after key extraction and matching in
one run of `Matcher.process`. -/
def matcher_tables (df1 df2 : Df) (url1 c1 url2 c2 : String) : Df × Df :=
  let d1 := preprocess_urls_df df1 url1 c1
  let d2 := preprocess_urls_df df2 url2 c2
  (add_exact_match d1 d2 c1 c2, d2)

/-- Key-annotation value for a left row: the key itself when it occurs among
the right keys, else null. -/
def exactMatchCell (cdKeys : List String) (k : String) : Cell :=
  if cdKeys.contains k then some k else none

/-- Modelled from the claim wording of the social-profile extraction: strip
the query string and a trailing `/about` segment, percent-decode, take the
last non-empty path segment after a `/company/` or `/in/` marker (else the
whole remaining string), keep only alphanumerics and hyphens, lowercase. -/
def linkedinExtractClaimed (url : String) : String :=
  let u1 := takeUntilChar '?' url.toList
  let r := rstripSlashes u1
  let u2 := if ("/about".toList).isSuffixOf r then r.take (r.length - 6) else r
  let u3 := unquoteL u2
  let seg :=
    if containsSub ("/company/".toList) u3 || containsSub ("/in/".toList) u3 then
      ((splitC '/' u3).filter (fun s => !s.isEmpty)).getLastD []
    else u3
  ⟨(lowerL seg).filter (fun c => c.isAlphanum || c == '-')⟩

/-! ## Shared helper lemmas -/

theorem zip_map_self {α β : Type} (f : α → β) (l : List α) :
    l.zip (l.map f) = l.map (fun a => (a, f a)) := by
  induction l with
  | nil => rfl
  | cons a as ih => simp [ih]

theorem map_eq_self_of_fixed {α : Type} {f : α → α} {l : List α}
    (h : ∀ a ∈ l, f a = a) : l.map f = l := by
  induction l with
  | nil => rfl
  | cons a as ih =>
    simp only [List.map_cons, h a (List.mem_cons_self a as)]
    rw [ih (fun x hx => h x (List.mem_cons_of_mem a hx))]

theorem lowerPairs_snd_fixed : ∀ p ∈ lowerPairs, lowerChar p.2 = p.2 := by decide

theorem lowerChar_idem (c : Char) : lowerChar (lowerChar c) = lowerChar c := by
  rcases h : lowerPairs.find? (fun p => p.1 == c) with _ | p
  · have hc : lowerChar c = c := by simp [lowerChar, h]
    rw [hc, hc]
  · have hc : lowerChar c = p.2 := by simp [lowerChar, h]
    rw [hc]
    exact lowerPairs_snd_fixed p (List.mem_of_find?_eq_some h)

theorem lowerL_idem (l : List Char) : lowerL (lowerL l) = lowerL l := by
  simp only [lowerL, List.map_map]
  exact List.map_congr_left (fun c _ => lowerChar_idem c)

theorem lowerL_filter_lowerL (q : Char → Bool) (l : List Char) :
    lowerL ((lowerL l).filter q) = (lowerL l).filter q := by
  apply map_eq_self_of_fixed
  intro a ha
  have ha2 : a ∈ lowerL l := List.mem_of_mem_filter ha
  obtain ⟨c, _, rfl⟩ := List.mem_map.mp ha2
  exact lowerChar_idem c

/-! ## Claim C10: fuzzy matching with an empty candidate pool -/

/-- C10: with an empty right-side candidate pool, fuzzy matching does not
fail: `find_best_match_with_distance_poly` returns the sentinel pair
(`none` modelling `None`, `none` modelling `float(inf)`), and
`process_companys` in fuzzy mode yields `(left key, no match, infinity)`
for every left key. -/
theorem fuzzy_empty_pool_sentinel (cd : String) (crm : List String) :
    find_best_match_with_distance_poly cd [] = (none, none) ∧
    process_companys crm [] MatchType.fuzzy = crm.map (fun c => (c, none, none)) := by
  constructor
  · rfl
  · simp [process_companys, find_best_match_with_distance_poly, findBestGo]

/-! ## Claim C8: the fuzzy strategy returns the first minimizer -/

theorem findBestGo_spec (cd : String) :
    ∀ (l : List String) (b : String) (m : Nat),
      (findBestGo cd l (some b) (some m) = (some b, some m) ∧ ∀ x ∈ l, m ≤ lev cd x) ∨
      (∃ pre c post, l = pre ++ c :: post ∧
        findBestGo cd l (some b) (some m) = (some c, some (lev cd c)) ∧
        lev cd c < m ∧ (∀ x ∈ l, lev cd c ≤ lev cd x) ∧ ∀ x ∈ pre, lev cd c < lev cd x) := by
  intro l
  induction l with
  | nil => exact fun b m => Or.inl ⟨rfl, by simp⟩
  | cons c rest ih =>
    intro b m
    by_cases hc : lev cd c < m
    · have hstep : findBestGo cd (c :: rest) (some b) (some m) =
          findBestGo cd rest (some c) (some (lev cd c)) := by
        simp [findBestGo, ltInf, hc]
      rcases ih c (lev cd c) with ⟨heq, hall⟩ | ⟨pre2, c2, post2, hsplit, heq, hlt, hall, hpre⟩
      · refine Or.inr ⟨[], c, rest, rfl, ?_, hc, ?_, by simp⟩
        · rw [hstep, heq]
        · intro x hx
          rcases List.mem_cons.mp hx with rfl | hx
          · exact Nat.le_refl _
          · exact hall x hx
      · refine Or.inr ⟨c :: pre2, c2, post2, by rw [hsplit]; rfl, ?_, Nat.lt_trans hlt hc, ?_, ?_⟩
        · rw [hstep, heq]
        · intro x hx
          rcases List.mem_cons.mp hx with rfl | hx
          · exact Nat.le_of_lt hlt
          · exact hall x hx
        · intro x hx
          rcases List.mem_cons.mp hx with rfl | hx
          · exact hlt
          · exact hpre x hx
    · have hm : m ≤ lev cd c := Nat.le_of_not_lt hc
      have hstep : findBestGo cd (c :: rest) (some b) (some m) =
          findBestGo cd rest (some b) (some m) := by
        simp [findBestGo, ltInf, hc]
      rcases ih b m with ⟨heq, hall⟩ | ⟨pre2, c2, post2, hsplit, heq, hlt, hall, hpre⟩
      · refine Or.inl ⟨by rw [hstep, heq], ?_⟩
        intro x hx
        rcases List.mem_cons.mp hx with rfl | hx
        · exact hm
        · exact hall x hx
      · refine Or.inr ⟨c :: pre2, c2, post2, by rw [hsplit]; rfl, by rw [hstep, heq],
          hlt, ?_, ?_⟩
        · intro x hx
          rcases List.mem_cons.mp hx with rfl | hx
          · exact Nat.le_trans (Nat.le_of_lt hlt) hm
          · exact hall x hx
        · intro x hx
          rcases List.mem_cons.mp hx with rfl | hx
          · exact Nat.lt_of_lt_of_le hlt hm
          · exact hpre x hx

/-- C8: under the fuzzy strategy, for each left key the matcher returns a
right key achieving the minimum Levenshtein distance over all right keys
together with that distance; ties go to the first minimizing right key in
iteration order (every strictly earlier candidate has strictly larger
distance); no distance threshold is applied, and `process_companys` in
fuzzy mode returns exactly these pairs for every left key. -/
theorem fuzzy_returns_first_minimizer (cd : String) (crm : List String) (lefts : List String)
    (hne : crm ≠ []) :
    (∃ pre c post, crm = pre ++ c :: post ∧
      find_best_match_with_distance_poly cd crm = (some c, some (lev cd c)) ∧
      (∀ x ∈ crm, lev cd c ≤ lev cd x) ∧ ∀ x ∈ pre, lev cd c < lev cd x) ∧
    process_companys lefts crm MatchType.fuzzy =
      lefts.map (fun q => (q, (find_best_match_with_distance_poly q crm).1,
        (find_best_match_with_distance_poly q crm).2)) := by
  constructor
  · obtain ⟨c0, rest, rfl⟩ : ∃ c0 rest, crm = c0 :: rest := by
      cases crm with
      | nil => exact absurd rfl hne
      | cons a l => exact ⟨a, l, rfl⟩
    have hstep : find_best_match_with_distance_poly cd (c0 :: rest) =
        findBestGo cd rest (some c0) (some (lev cd c0)) := by
      simp [find_best_match_with_distance_poly, findBestGo, ltInf]
    rcases findBestGo_spec cd rest c0 (lev cd c0) with ⟨heq, hall⟩ |
      ⟨pre2, c2, post2, hsplit, heq, hlt, hall, hpre⟩
    · refine ⟨[], c0, rest, rfl, by rw [hstep, heq], ?_, by simp⟩
      intro x hx
      rcases List.mem_cons.mp hx with rfl | hx
      · exact Nat.le_refl _
      · exact hall x hx
    · refine ⟨c0 :: pre2, c2, post2, by rw [hsplit]; rfl, by rw [hstep, heq], ?_, ?_⟩
      · intro x hx
        rcases List.mem_cons.mp hx with rfl | hx
        · exact Nat.le_of_lt hlt
        · exact hall x hx
      · intro x hx
        rcases List.mem_cons.mp hx with rfl | hx
        · exact hlt
        · exact hpre x hx
  · simp [process_companys]

/-- Witness for C8 at a concrete query and candidate pool. -/
theorem fuzzy_returns_first_minimizer_witness :
    (["abc", "b"] : List String) ≠ [] ∧
    ((∃ pre c post, (["abc", "b"] : List String) = pre ++ c :: post ∧
      find_best_match_with_distance_poly ("a") ["abc", "b"] = (some c, some (lev ("a") c)) ∧
      (∀ x ∈ (["abc", "b"] : List String), lev ("a") c ≤ lev ("a") x) ∧
      ∀ x ∈ pre, lev ("a") c < lev ("a") x) ∧
    process_companys ["q"] ["abc", "b"] MatchType.fuzzy =
      (["q"] : List String).map (fun q => (q, (find_best_match_with_distance_poly q ["abc", "b"]).1,
        (find_best_match_with_distance_poly q ["abc", "b"]).2))) :=
  ⟨by decide, fuzzy_returns_first_minimizer ("a") ["abc", "b"] ["q"] (by decide)⟩

/-! ## Claim C1: the duplicate-resolution pass partitions the matched table -/

theorem mem_dupRows {t : List (List String)} {r : List String} :
    r ∈ dupRows t ↔ r ∈ t ∧ 2 ≤ keyCount t (lastVal r) := by
  simp [dupRows, List.mem_filter]

theorem mem_dupRowsSorted {t : List (List String)} {r : List String} :
    r ∈ dupRowsSorted t ↔ r ∈ t ∧ 2 ≤ keyCount t (lastVal r) := by
  rw [dupRowsSorted]
  rw [(List.perm_insertionSort _ (dupRows t)).mem_iff]
  exact mem_dupRows

theorem mem_nonDupRows {t : List (List String)} {r : List String} :
    r ∈ nonDupRows t ↔ r ∈ t ∧ keyCount t (lastVal r) = 1 := by
  simp [nonDupRows, List.mem_filter]

theorem one_le_keyCount {t : List (List String)} {r : List String} (h : r ∈ t) :
    1 ≤ keyCount t (lastVal r) := by
  have hmem : r ∈ t.filter (fun x => lastVal x == lastVal r) :=
    List.mem_filter.mpr ⟨h, by simp⟩
  exact List.length_pos.mpr (List.ne_nil_of_mem hmem)

/-- C1: the clean output and the ambiguous output of
`process_matched_output` partition the matched rows: their union is the
original table (as sets of rows), they are disjoint, a row lands in the
ambiguous output exactly when its last-column value occurs at least twice
in the table, and a last-column value present in the ambiguous output never
occurs in the clean output. -/
theorem dedup_partition (t : List (List String)) (r : List String) (k : String) :
    ((r ∈ nonDupRows t ∨ r ∈ dupRowsSorted t) ↔ r ∈ t) ∧
    (¬ (r ∈ nonDupRows t ∧ r ∈ dupRowsSorted t)) ∧
    (r ∈ t → (r ∈ dupRowsSorted t ↔ 2 ≤ keyCount t (lastVal r))) ∧
    ((∃ rd, rd ∈ dupRowsSorted t ∧ lastVal rd = k) → keyCount (nonDupRows t) k = 0) := by
  refine ⟨?_, ?_, ?_, ?_⟩
  · constructor
    · rintro (h | h)
      · exact (mem_nonDupRows.mp h).1
      · exact (mem_dupRowsSorted.mp h).1
    · intro h
      rcases Nat.lt_or_ge (keyCount t (lastVal r)) 2 with hlt | hge
      · have h1 := one_le_keyCount h
        exact Or.inl (mem_nonDupRows.mpr ⟨h, by omega⟩)
      · exact Or.inr (mem_dupRowsSorted.mpr ⟨h, hge⟩)
  · rintro ⟨h1, h2⟩
    have e1 := (mem_nonDupRows.mp h1).2
    have e2 := (mem_dupRowsSorted.mp h2).2
    omega
  · intro h
    constructor
    · intro hd
      exact (mem_dupRowsSorted.mp hd).2
    · intro hge
      exact mem_dupRowsSorted.mpr ⟨h, hge⟩
  · rintro ⟨rd, hrd, rfl⟩
    have hge := (mem_dupRowsSorted.mp hrd).2
    have hnil : (nonDupRows t).filter (fun x => lastVal x == lastVal rd) = [] := by
      rw [List.filter_eq_nil_iff]
      intro x hx
      have hx2 := mem_nonDupRows.mp hx
      intro hbeq
      have hxv : lastVal x = lastVal rd := by simpa using hbeq
      rw [hxv] at hx2
      omega
    simp [keyCount, hnil]

/-- Witness for C1 at a concrete matched table. -/
theorem dedup_partition_witness :
    (["a", "x"] : List String) ∈ dupRowsSorted [["a", "x"], ["c", "y"], ["b", "x"]] ∧
    keyCount (nonDupRows [["a", "x"], ["c", "y"], ["b", "x"]]) "x" = 0 := by
  have h := dedup_partition [["a", "x"], ["c", "y"], ["b", "x"]] ["a", "x"] "x"
  have hmem : (["a", "x"] : List String) ∈ dupRowsSorted [["a", "x"], ["c", "y"], ["b", "x"]] :=
    (h.2.2.1 (by decide)).mpr (by decide)
  exact ⟨hmem, h.2.2.2 ⟨["a", "x"], hmem, by decide⟩⟩

/-! ## Normal form of the record-level exact join -/

theorem match_companies_eq (left right : List CompanyRec) :
    match_companies left right = left.flatMap (fun l =>
      (right.filter (fun r => l.key == r.key)).map (fun r =>
        (⟨l.id, r.id, l.url, r.url, l.key, r.key⟩ : MatchPair))) := by
  simp only [match_companies]
  have h1 : (process_companys (left.map (fun l => l.key)) (right.map (fun r => r.key))
      MatchType.exact).map (fun t => t.2.1) =
      left.map (fun l =>
        if (right.map (fun r => r.key)).contains l.key then some l.key else none) := by
    simp [process_companys, List.map_map, apply_ite]
  rw [h1, zip_map_self, List.flatMap_map]
  apply List.flatMap_congr
  intro l _
  by_cases hc : (right.map (fun r => r.key)).contains l.key
  · simp only [hc, if_pos]
    have hf : right.filter (fun r => (some l.key == some r.key)) =
        right.filter (fun r => l.key == r.key) := by
      apply List.filter_congr
      intro r _
      simp
    simp only [hf]
  · simp only [hc]
    rw [if_neg (by simpa using hc)]
    have hnone : right.filter (fun r => ((none : Option String) == some r.key)) = [] := by
      rw [List.filter_eq_nil_iff]
      intro r _
      simp
    have hmem : ∀ r ∈ right, ¬ (l.key == r.key) = true := by
      intro r hr hk
      apply hc
      have hkey : l.key = r.key := by simpa using hk
      rw [List.contains, List.elem_iff, hkey]
      exact List.mem_map_of_mem (fun rr => rr.key) hr
    rw [hnone, List.filter_eq_nil_iff.mpr hmem]

theorem matched_ids_contains {left right : List CompanyRec} {x : String} :
    ((match_companies left right).map (fun p => p.id1)).contains x = true ↔
      ∃ p ∈ match_companies left right, p.id1 = x := by
  rw [List.contains, List.elem_iff]
  constructor
  · intro h
    obtain ⟨p, hp, hpe⟩ := List.mem_map.mp h
    exact ⟨p, hp, hpe⟩
  · rintro ⟨p, hp, rfl⟩
    exact List.mem_map_of_mem (fun p => p.id1) hp

/-! ## Claim C2: exact-match completeness for left records -/

/-- C2: after one exact-matching operation with both record sets non-empty
after null filtering and unique left identifiers, every left record appears
in exactly one of the matched-pairs output and the unmatched output: its
identifier is in the unmatched table iff it appears in no produced
MatchPair — never both, never neither. -/
theorem exact_match_completeness (left right : List CompanyRec)
    (hids : (left.map (fun l => l.id)).Nodup) (hl : left ≠ []) (hr : right ≠ []) :
    ∀ l ∈ left,
      ((∃ e ∈ unmatched_records left (match_companies left right), e.1 = l.id) ↔
        ¬ ∃ p ∈ match_companies left right, p.id1 = l.id) ∧
      (((∃ e ∈ unmatched_records left (match_companies left right), e.1 = l.id) ∧
          ¬ ∃ p ∈ match_companies left right, p.id1 = l.id) ∨
        ((∃ p ∈ match_companies left right, p.id1 = l.id) ∧
          ¬ ∃ e ∈ unmatched_records left (match_companies left right), e.1 = l.id)) := by
  intro l hmem
  have hiff : (∃ e ∈ unmatched_records left (match_companies left right), e.1 = l.id) ↔
      ¬ ∃ p ∈ match_companies left right, p.id1 = l.id := by
    constructor
    · rintro ⟨e, he, heq⟩
      obtain ⟨l2, hl2f, rfl⟩ := List.mem_map.mp he
      have hfilt := (List.mem_filter.mp hl2f).2
      have hfalse : ((match_companies left right).map (fun p => p.id1)).contains l2.id = false := by
        simpa using hfilt
      intro hex
      have htrue : ((match_companies left right).map (fun p => p.id1)).contains l2.id = true := by
        apply matched_ids_contains.mpr
        rw [show (l2.id, l2.url).1 = l2.id from rfl] at heq
        rw [heq]
        exact hex
      rw [htrue] at hfalse
      cases hfalse
    · intro hno
      refine ⟨(l.id, l.url), ?_, rfl⟩
      apply List.mem_map.mpr
      refine ⟨l, ?_, rfl⟩
      apply List.mem_filter.mpr
      refine ⟨hmem, ?_⟩
      have hfalse : ((match_companies left right).map (fun p => p.id1)).contains l.id = false := by
        rcases Bool.eq_false_or_eq_true
          (((match_companies left right).map (fun p => p.id1)).contains l.id) with h | h
        · exact absurd (matched_ids_contains.mp h) hno
        · exact h
      show (!((match_companies left right).map (fun p => p.id1)).contains l.id) = true
      rw [hfalse]
      rfl
  refine ⟨hiff, ?_⟩
  by_cases hB : ∃ p ∈ match_companies left right, p.id1 = l.id
  · exact Or.inr ⟨hB, fun hA => (hiff.mp hA) hB⟩
  · exact Or.inl ⟨hiff.mpr hB, hB⟩

/-- Witness for C2 at concrete record sets: the matched left record is only
in the matched output, the unmatched one only in the unmatched output. -/
theorem exact_match_completeness_witness :
    (∃ p ∈ match_companies [(⟨"1", "u", "k"⟩ : CompanyRec), ⟨"2", "v", "j"⟩] [⟨"9", "w", "k"⟩],
      p.id1 = "1") ∧
    (∃ e ∈ unmatched_records [(⟨"1", "u", "k"⟩ : CompanyRec), ⟨"2", "v", "j"⟩]
      (match_companies [(⟨"1", "u", "k"⟩ : CompanyRec), ⟨"2", "v", "j"⟩] [⟨"9", "w", "k"⟩]),
        e.1 = "2") := by
  have h := exact_match_completeness [(⟨"1", "u", "k"⟩ : CompanyRec), ⟨"2", "v", "j"⟩]
    [⟨"9", "w", "k"⟩] (by decide) (by decide) (by decide)
  have h1 := (h ⟨"1", "u", "k"⟩ (by decide)).1
  have h2 := (h ⟨"2", "v", "j"⟩ (by decide)).1
  constructor
  · by_contra hno
    exact (by decide :
      ¬ ∃ e ∈ unmatched_records [(⟨"1", "u", "k"⟩ : CompanyRec), ⟨"2", "v", "j"⟩]
        (match_companies [(⟨"1", "u", "k"⟩ : CompanyRec), ⟨"2", "v", "j"⟩] [⟨"9", "w", "k"⟩]),
          e.1 = "1") (h1.mpr hno)
  · exact h2.mpr (by decide)

/-! ## Claim C4: multiplicity of a left identifier in the matched output -/

theorem filter_flatMap {α β : Type} (l : List α) (f : α → List β) (p : β → Bool) :
    (l.flatMap f).filter p = l.flatMap (fun x => (f x).filter p) := by
  induction l with
  | nil => rfl
  | cons a as ih => simp [List.filter_append, ih]

theorem join_id_filter_count (right : List CompanyRec) :
    ∀ (L : List CompanyRec), (L.map (fun x => x.id)).Nodup → ∀ l ∈ L,
      ((L.flatMap (fun l2 => (right.filter (fun r => l2.key == r.key)).map (fun r =>
        (⟨l2.id, r.id, l2.url, r.url, l2.key, r.key⟩ : MatchPair)))).filter
          (fun p => p.id1 == l.id)).length =
      (right.filter (fun r => l.key == r.key)).length := by
  intro L
  induction L with
  | nil => intro _ l hl; exact absurd hl (List.not_mem_nil l)
  | cons a as ih =>
    intro hnd l hl
    rw [List.map_cons, List.nodup_cons] at hnd
    obtain ⟨hnda, hndas⟩ := hnd
    rw [List.flatMap_cons, List.filter_append, List.length_append]
    rcases List.mem_cons.mp hl with rfl | hmem2
    · have hhead : ((right.filter (fun r => l.key == r.key)).map (fun r =>
          (⟨l.id, r.id, l.url, r.url, l.key, r.key⟩ : MatchPair))).filter
            (fun p => p.id1 == l.id) =
          (right.filter (fun r => l.key == r.key)).map (fun r =>
            (⟨l.id, r.id, l.url, r.url, l.key, r.key⟩ : MatchPair)) := by
        apply List.filter_eq_self.mpr
        intro p hp
        obtain ⟨r, _, rfl⟩ := List.mem_map.mp hp
        simp
      have htail : ((as.flatMap (fun l2 => (right.filter (fun r => l2.key == r.key)).map
          (fun r => (⟨l2.id, r.id, l2.url, r.url, l2.key, r.key⟩ : MatchPair)))).filter
            (fun p => p.id1 == l.id)) = [] := by
        rw [List.filter_eq_nil_iff]
        intro p hp hpe
        obtain ⟨l2, hl2, hpm⟩ := List.mem_flatMap.mp hp
        obtain ⟨r, _, rfl⟩ := List.mem_map.mp hpm
        have heq : l2.id = l.id := by simpa using hpe
        apply hnda
        rw [show l.id = l2.id from heq.symm]
        exact List.mem_map_of_mem (fun x => x.id) hl2
      rw [hhead, htail]
      simp [List.length_map]
    · have hne : a.id ≠ l.id := by
        intro he
        apply hnda
        rw [he]
        exact List.mem_map_of_mem (fun x => x.id) hmem2
      have hhead : ((right.filter (fun r => a.key == r.key)).map (fun r =>
          (⟨a.id, r.id, a.url, r.url, a.key, r.key⟩ : MatchPair))).filter
            (fun p => p.id1 == l.id) = [] := by
        rw [List.filter_eq_nil_iff]
        intro p hp hpe
        obtain ⟨r, _, rfl⟩ := List.mem_map.mp hp
        exact hne (by simpa using hpe)
      rw [hhead]
      simp only [List.length_nil, Nat.zero_add]
      exact ih hndas l hmem2

theorem nodup_key_filter_length (k : String) :
    ∀ (right : List CompanyRec), (right.map (fun r => r.key)).Nodup →
      (right.filter (fun r => k == r.key)).length ≤ 1 := by
  intro right
  induction right with
  | nil => intro _; simp
  | cons a as ih =>
    intro hnd
    rw [List.map_cons, List.nodup_cons] at hnd
    obtain ⟨hnda, hndas⟩ := hnd
    rw [List.filter_cons]
    by_cases hk : (k == a.key) = true
    · have hk2 : k = a.key := by simpa using hk
      have hrest : as.filter (fun r => k == r.key) = [] := by
        rw [List.filter_eq_nil_iff]
        intro r hr hre
        have hkr : k = r.key := by simpa using hre
        apply hnda
        rw [show a.key = r.key from by rw [← hk2, hkr]]
        exact List.mem_map_of_mem (fun x => x.key) hr
      simp [hk, hrest]
    · simp only [Bool.not_eq_true] at hk
      simp only [hk, Bool.false_eq_true, if_false]
      exact ih hndas

/-- Counterexample to C4 as stated: with two right records sharing one
company key, the single left identifier appears in two MatchPairs of the
matched output. -/
theorem exact_match_fanout_counterexample :
    ((match_companies [⟨"L1", "u1", "k"⟩] [(⟨"R1", "v1", "k"⟩ : CompanyRec), ⟨"R2", "v2", "k"⟩]).map
      (fun p => p.id1) = ["L1", "L1"]) ∧
    ¬ (((match_companies [⟨"L1", "u1", "k"⟩]
        [(⟨"R1", "v1", "k"⟩ : CompanyRec), ⟨"R2", "v2", "k"⟩]).filter
      (fun p => p.id1 == "L1")).length ≤ 1) := by
  exact ⟨by decide, by decide⟩

/-- C4 amended: with unique left identifiers, a left identifier appears in
exactly one MatchPair per key-equal right record (the relational join fans
out); in particular it appears in at most one MatchPair whenever the right
keys are duplicate-free. -/
theorem exact_match_multiplicity (left right : List CompanyRec)
    (hids : (left.map (fun l => l.id)).Nodup) :
    ∀ l ∈ left,
      ((match_companies left right).filter (fun p => p.id1 == l.id)).length =
        (right.filter (fun r => l.key == r.key)).length ∧
      ((right.map (fun r => r.key)).Nodup →
        ((match_companies left right).filter (fun p => p.id1 == l.id)).length ≤ 1) := by
  intro l hmem
  have e : ((match_companies left right).filter (fun p => p.id1 == l.id)).length =
      (right.filter (fun r => l.key == r.key)).length := by
    rw [match_companies_eq]
    exact join_id_filter_count right left hids l hmem
  refine ⟨e, fun hrk => ?_⟩
  rw [e]
  exact nodup_key_filter_length l.key right hrk

/-- Witness for the amended C4 at concrete record sets. -/
theorem exact_match_multiplicity_witness :
    ((match_companies [⟨"L1", "u1", "k"⟩] [(⟨"R1", "v1", "k"⟩ : CompanyRec)]).filter
      (fun p => p.id1 == "L1")).length = 1 ∧
    ((match_companies [⟨"L1", "u1", "k"⟩] [(⟨"R1", "v1", "k"⟩ : CompanyRec)]).filter
      (fun p => p.id1 == "L1")).length ≤ 1 := by
  have h := exact_match_multiplicity [⟨"L1", "u1", "k"⟩] [(⟨"R1", "v1", "k"⟩ : CompanyRec)]
    (by decide) ⟨"L1", "u1", "k"⟩ (by decide)
  exact ⟨h.1.trans (by decide), h.2 (by decide)⟩

/-! ## Claim C7: empty inputs abandon the operation with no output -/

/-- C7: if either input collection is empty after null filtering, the
matching operation fails with the empty-input error (modelled as the
`Except.error` sentinel carrying the `ValueError` message that the spec
calls `EmptyInputError`) and is abandoned with no partial output: neither
the matched file nor the unmatched file is written. -/
theorem empty_input_abandons (raw1 raw2 : List RawRec)
    (h : dropNulls raw1 = [] ∨ dropNulls raw2 = []) :
    (∃ msg, process_result raw1 raw2 = Except.error msg) ∧
    process_writes raw1 raw2 = [] := by
  have herr : ∃ msg, process_result raw1 raw2 = Except.error msg := by
    rcases h with h | h
    · by_cases e1 : raw1 = []
      · exact ⟨"The loaded DataFrame is empty.", by simp [process_result, load_clean, e1]⟩
      · have hf : load_clean raw1 = Except.ok [] := by
          simp [load_clean, List.isEmpty_iff, e1, h]
        rcases h2 : load_clean raw2 with e | f2
        · exact ⟨e, by simp [process_result, hf, h2]⟩
        · exact ⟨"Input DataFrame is None or empty.",
            by simp [process_result, hf, h2, preprocess_recs]⟩
    · by_cases e2 : raw2 = []
      · rcases h1 : load_clean raw1 with e | f1
        · exact ⟨e, by simp [process_result, h1]⟩
        · refine ⟨"The loaded DataFrame is empty.", ?_⟩
          simp only [process_result]
          rw [h1]
          simp [load_clean, e2]
      · have hf2 : load_clean raw2 = Except.ok [] := by
          simp [load_clean, List.isEmpty_iff, e2, h]
        rcases h1 : load_clean raw1 with e | f1
        · exact ⟨e, by simp [process_result, h1]⟩
        · rcases h3 : preprocess_recs f1 with e | d1
          · exact ⟨e, by simp [process_result, h1, hf2, h3]⟩
          · refine ⟨"Input DataFrame is None or empty.", ?_⟩
            have hf1 : f1 ≠ [] := by
              intro h0
              rw [h0] at h3
              simp [preprocess_recs] at h3
            simp only [process_result]
            rw [h1, hf2]
            simp [preprocess_recs, hf1]
  obtain ⟨msg, hm⟩ := herr
  exact ⟨⟨msg, hm⟩, by simp [process_writes, hm]⟩

/-- Witness for C7: a left table whose only row has a null URL. -/
theorem empty_input_abandons_witness :
    dropNulls [(⟨some "1", none⟩ : RawRec)] = [] ∧
    ((∃ msg, process_result [(⟨some "1", none⟩ : RawRec)]
        [⟨some "2", some "http://example.com"⟩] = Except.error msg) ∧
      process_writes [(⟨some "1", none⟩ : RawRec)]
        [⟨some "2", some "http://example.com"⟩] = []) :=
  ⟨by decide, empty_input_abandons _ _ (Or.inl (by decide))⟩

/-! ## Claim C6: extraction is total and lowercase -/

theorem lowerL_std_company (e : Extracted) :
    lowerL (stdCompanyName e) = stdCompanyName e := by
  simp only [stdCompanyName]
  exact lowerL_idem _

theorem lowerL_linkedin (u : List Char) :
    lowerL (preprocessLinkedinUrlL u) = preprocessLinkedinUrlL u := by
  simp only [preprocessLinkedinUrlL]
  exact lowerL_filter_lowerL _ _

theorem pyLower_mk (l : List Char) : pyLower ⟨l⟩ = ⟨lowerL l⟩ := rfl

theorem lowerL_extractL (url : List Char) : lowerL (extractL url) = extractL url := by
  simp only [extractL]
  by_cases h1 : (socialHostsList.map String.toList).contains
    (tldExtractL (fixSchemeL url)).domain
  · simp only [h1, if_pos]
    by_cases h2 : !(preprocessLinkedinUrlL (fixSchemeL url)).isEmpty
    · simp only [h2, if_pos]
      exact lowerL_linkedin _
    · simp only [h2]
      rw [if_neg (by simpa using h2)]
      exact lowerL_std_company _
  · simp only [h1]
    rw [if_neg (by simpa using h1)]
    exact lowerL_std_company _

/-- C6: for every input string, `extract_domain_and_company` is a total
function (the embedding returns normally on all strings) whose result is
lowercase: the returned key equals its own lowercasing. -/
theorem extract_always_lowercase (url : String) :
    extract_domain_and_company url = pyLower (extract_domain_and_company url) := by
  show (⟨extractL url.toList⟩ : String) = pyLower ⟨extractL url.toList⟩
  rw [pyLower_mk, lowerL_extractL]

/-! ## Claim C3: social-profile extraction -/

theorem toList_mk (l : List Char) : (⟨l⟩ : String).toList = l := rfl

set_option maxHeartbeats 2000000 in
/-- Counterexample to C3 as stated: the code truncates from the first
`/about` occurrence anywhere (not only a trailing `/about` segment), and it
keeps underscores (Python `\w`), so the claimed description disagrees with
`extract_domain_and_company` at these inputs. -/
theorem social_extraction_counterexample :
    extract_domain_and_company ("https://www.linkedin.com/company/aboutfoo") =
      "httpswwwlinkedincomcompany" ∧
    linkedinExtractClaimed ("https://www.linkedin.com/company/aboutfoo") = "aboutfoo" ∧
    extract_domain_and_company ("https://www.linkedin.com/company/aboutfoo") ≠
      linkedinExtractClaimed ("https://www.linkedin.com/company/aboutfoo") ∧
    extract_domain_and_company ("https://www.linkedin.com/company/acme_corp") = "acme_corp" := by
  exact ⟨by decide, by decide, by decide, by decide⟩

theorem extractL_social (u : List Char)
    (h1 : (socialHostsList.map String.toList).contains (tldExtractL (fixSchemeL u)).domain = true)
    (h2 : preprocessLinkedinUrlL (fixSchemeL u) ≠ []) :
    extractL u = preprocessLinkedinUrlL (fixSchemeL u) := by
  have h3 : (!(preprocessLinkedinUrlL (fixSchemeL u)).isEmpty) = true := by
    simp [List.isEmpty_iff, h2]
  simp only [extractL]
  rw [if_pos h1, if_pos h3]

set_option maxHeartbeats 2000000 in
/-- C3 amended: `extract("https://www.linkedin.com/company/acme-corp/about")`
is `"acme-corp"`; and for every URL whose registrable-domain name (after the
malformed-scheme fix) is one of the social/registry hosts, whenever the
social-profile path `preprocess_linkedin_url` — truncate at the first `?` or
`/about` occurrence, percent-decode, take the last path segment after
rstripping `/` when a `/company/` or `/in/` marker is present (else the
whole remaining string), lowercase and keep only alphanumerics, underscores
and hyphens — yields a non-empty key, `extract_domain_and_company` returns
it immediately. -/
theorem social_extraction_amended :
    extract_domain_and_company ("https://www.linkedin.com/company/acme-corp/about") =
      "acme-corp" ∧
    ∀ url : String,
      (socialHostsList.map String.toList).contains
        (tldExtractL (fixSchemeL url.toList)).domain = true →
      preprocessLinkedinUrlL (fixSchemeL url.toList) ≠ [] →
      extract_domain_and_company url =
        preprocess_linkedin_url ⟨fixSchemeL url.toList⟩ := by
  refine ⟨by decide, ?_⟩
  intro url h1 h2
  exact congrArg (fun l => (⟨l⟩ : String)) (extractL_social url.toList h1 h2)

set_option maxHeartbeats 2000000 in
/-- Witness for the amended C3 at the concrete LinkedIn company URL. -/
theorem social_extraction_amended_witness :
    ((socialHostsList.map String.toList).contains
      (tldExtractL (fixSchemeL ("https://www.linkedin.com/company/acme-corp/about").toList)).domain
        = true) ∧
    extract_domain_and_company ("https://www.linkedin.com/company/acme-corp/about") =
      preprocess_linkedin_url ⟨fixSchemeL ("https://www.linkedin.com/company/acme-corp/about").toList⟩ :=
  ⟨by decide, social_extraction_amended.2 ("https://www.linkedin.com/company/acme-corp/about")
    (by decide) (by decide)⟩

/-! ## Claim C9: the input tables after key extraction and matching -/

theorem contains_eq_false_of_not_mem {a : String} {l : List String} (h : a ∉ l) :
    l.contains a = false := by
  rcases Bool.eq_false_or_eq_true (l.contains a) with ht | hf
  · exact absurd (List.elem_iff.mp ht) h
  · exact hf

theorem contains_eq_true_of_mem {a : String} {l : List String} (h : a ∈ l) :
    l.contains a = true := List.elem_iff.mpr h

theorem set_getD_eq_self (l : List Cell) (i : Nat) (v : String)
    (h : l.getD i none = some v) : l.set i (some v) = l := by
  induction l generalizing i with
  | nil => simp [List.getD] at h
  | cons a as ih =>
    cases i with
    | zero =>
      rw [List.getD_cons_zero] at h
      simp [h]
    | succ n =>
      rw [List.getD_cons_succ] at h
      simp only [List.set]
      rw [ih n h]

theorem snoc_getD_length (l : List Cell) (x : Cell) :
    (l ++ [x]).getD l.length none = x := by
  rw [List.getD_append_right l [x] none l.length (Nat.le_refl _)]
  simp

theorem indexOf_snoc_self (c : String) (l : List String) (h : c ∉ l) :
    (l ++ [c]).indexOf c = l.length := by
  induction l with
  | nil => simp
  | cons a as ih =>
    have hne : c ≠ a := by
      intro he
      exact h (by rw [he]; exact List.mem_cons_self a as)
    have h2 : c ∉ as := fun hm => h (List.mem_cons_of_mem a hm)
    show ((a :: as) ++ [c]).indexOf c = as.length + 1
    rw [List.cons_append, List.indexOf_cons_ne _ (Ne.symm hne), ih h2]

theorem zip_map_set (rows : List (List Cell)) (g : List Cell → Cell) (i : Nat) :
    (rows.zip (rows.map g)).map (fun rv => rv.1.set i rv.2) =
      rows.map (fun r => r.set i (g r)) := by
  rw [zip_map_self, List.map_map]
  rfl

theorem zip_map_snoc (rows : List (List Cell)) (g : List Cell → Cell) :
    (rows.zip (rows.map g)).map (fun rv => rv.1 ++ [rv.2]) =
      rows.map (fun r => r ++ [g r]) := by
  rw [zip_map_self, List.map_map]
  rfl

theorem snoc_col_read (cols : List String) (c : String) (hc : c ∉ cols)
    (rows2 : List (List Cell)) (r : List Cell) (x : Cell)
    (hlen : r.length = cols.length) :
    colVal ⟨cols ++ [c], rows2⟩ c (r ++ [x]) = x := by
  show (r ++ [x]).getD ((cols ++ [c]).indexOf c) none = x
  rw [indexOf_snoc_self c cols hc, ← hlen]
  exact snoc_getD_length r x

theorem preprocess_urls_df_spec (df : Df) (urlCol companyCol : String)
    (hu : urlCol ∈ df.cols) (hc : companyCol ∉ df.cols)
    (hn : ∀ r ∈ df.rows, colVal df urlCol r ≠ none) :
    preprocess_urls_df df urlCol companyCol =
      ⟨df.cols ++ [companyCol],
        df.rows.map (fun r =>
          r ++ [some (extract_domain_and_company (cellStr (colVal df urlCol r)))])⟩ := by
  have hstep1 : setColVals df urlCol
      (df.rows.map (fun r => some (cellStr (colVal df urlCol r)))) = df := by
    simp only [setColVals]
    rw [if_pos (contains_eq_true_of_mem hu), zip_map_set]
    have hrows : df.rows.map (fun r =>
        r.set (df.cols.indexOf urlCol) (some (cellStr (colVal df urlCol r)))) = df.rows := by
      apply map_eq_self_of_fixed
      intro r hr
      rcases ho : colVal df urlCol r with _ | s
      · exact absurd ho (hn r hr)
      · exact set_getD_eq_self r _ s ho
    rw [hrows]
  simp only [preprocess_urls_df]
  rw [hstep1]
  simp only [setColVals]
  rw [if_neg (by simpa using hc), zip_map_snoc]

theorem add_exact_match_spec (cols1 : List String) (c1 : String) (rows1 : List (List Cell))
    (g1 : List Cell → String)
    (cols2 : List String) (c2 : String) (rows2 : List (List Cell)) (g2 : List Cell → String)
    (h1c : c1 ∉ cols1) (h2c : c2 ∉ cols2)
    (h1e : ("exact_match" : String) ∉ cols1 ++ [c1])
    (h1len : ∀ r ∈ rows1, r.length = cols1.length)
    (h2len : ∀ r ∈ rows2, r.length = cols2.length) :
    add_exact_match ⟨cols1 ++ [c1], rows1.map (fun r => r ++ [some (g1 r)])⟩
        ⟨cols2 ++ [c2], rows2.map (fun r => r ++ [some (g2 r)])⟩ c1 c2 =
      ⟨(cols1 ++ [c1]) ++ ["exact_match"],
        rows1.map (fun r => (r ++ [some (g1 r)]) ++
          [exactMatchCell (rows2.map g2) (g1 r)])⟩ := by
  have hcrm : (rows1.map (fun r => r ++ [some (g1 r)])).map (fun r =>
      cellStr (colVal ⟨cols1 ++ [c1], rows1.map (fun r => r ++ [some (g1 r)])⟩ c1 r)) =
      rows1.map g1 := by
    rw [List.map_map]
    apply List.map_congr_left
    intro r hr
    show cellStr (colVal ⟨cols1 ++ [c1], _⟩ c1 (r ++ [some (g1 r)])) = g1 r
    rw [snoc_col_read cols1 c1 h1c _ r (some (g1 r)) (h1len r hr)]
    rfl
  have hcd : (rows2.map (fun r => r ++ [some (g2 r)])).map (fun r =>
      cellStr (colVal ⟨cols2 ++ [c2], rows2.map (fun r => r ++ [some (g2 r)])⟩ c2 r)) =
      rows2.map g2 := by
    rw [List.map_map]
    apply List.map_congr_left
    intro r hr
    show cellStr (colVal ⟨cols2 ++ [c2], _⟩ c2 (r ++ [some (g2 r)])) = g2 r
    rw [snoc_col_read cols2 c2 h2c _ r (some (g2 r)) (h2len r hr)]
    rfl
  have hvals : (process_companys (rows1.map g1) (rows2.map g2) MatchType.exact).map
      (fun t => t.2.1) =
      rows1.map (fun r => exactMatchCell (rows2.map g2) (g1 r)) := by
    simp [process_companys, List.map_map, apply_ite, exactMatchCell]
  simp only [add_exact_match]
  rw [hcrm, hcd, hvals]
  simp only [setColVals]
  rw [if_neg (by simpa using h1e), List.zip_map', List.map_map]
  rfl

/-- Counterexample to C9 as stated: after key extraction and matching, the
left input table does not hold exactly its original columns plus the
company-key column — `match_companies` also annotates it in place with the
`exact_match` column. -/
theorem key_annotation_counterexample :
    ((matcher_tables ⟨["id", "url"], [[some ("1"), some ("http://example.com")]]⟩
        ⟨["id2", "url2"], [[some ("9"), some ("http://example.com")]]⟩
        "url" "ckey" "url2" "ckey2").1.cols =
      ["id", "url", "ckey", "exact_match"]) ∧
    ((matcher_tables ⟨["id", "url"], [[some ("1"), some ("http://example.com")]]⟩
        ⟨["id2", "url2"], [[some ("9"), some ("http://example.com")]]⟩
        "url" "ckey" "url2" "ckey2").1.cols ≠
      ["id", "url"] ++ ["ckey"]) := by
  exact ⟨by decide, by decide⟩

/-- C9 amended: during one matching operation the input records are not
mutated except for annotation: the right table ends with exactly its
original columns plus the derived company-key column; the left table ends
with its original columns plus the company-key column plus the
`exact_match` column added by `match_companies`; and in both tables every
original column value is unchanged (each output row is the original row
with the annotation cells appended). -/
theorem key_annotation_frame (df1 df2 : Df) (url1 c1 url2 c2 : String)
    (h1u : url1 ∈ df1.cols) (h1c : c1 ∉ df1.cols)
    (h1e : ("exact_match" : String) ∉ df1.cols) (hce : c1 ≠ "exact_match")
    (h2u : url2 ∈ df2.cols) (h2c : c2 ∉ df2.cols)
    (h1n : ∀ r ∈ df1.rows, colVal df1 url1 r ≠ none)
    (h2n : ∀ r ∈ df2.rows, colVal df2 url2 r ≠ none)
    (h1len : ∀ r ∈ df1.rows, r.length = df1.cols.length)
    (h2len : ∀ r ∈ df2.rows, r.length = df2.cols.length) :
    (matcher_tables df1 df2 url1 c1 url2 c2).1.cols = df1.cols ++ [c1, "exact_match"] ∧
    (matcher_tables df1 df2 url1 c1 url2 c2).2.cols = df2.cols ++ [c2] ∧
    (matcher_tables df1 df2 url1 c1 url2 c2).1.rows = df1.rows.map (fun r =>
      r ++ [some (extract_domain_and_company (cellStr (colVal df1 url1 r))),
        exactMatchCell
          (df2.rows.map (fun s => extract_domain_and_company (cellStr (colVal df2 url2 s))))
          (extract_domain_and_company (cellStr (colVal df1 url1 r)))]) ∧
    (matcher_tables df1 df2 url1 c1 url2 c2).2.rows = df2.rows.map (fun r =>
      r ++ [some (extract_domain_and_company (cellStr (colVal df2 url2 r)))]) := by
  have h1e2 : ("exact_match" : String) ∉ df1.cols ++ [c1] := by
    intro hm
    rcases List.mem_append.mp hm with hm | hm
    · exact h1e hm
    · have he : ("exact_match" : String) = c1 := by simpa using hm
      exact hce he.symm
  have hp1 := preprocess_urls_df_spec df1 url1 c1 h1u h1c h1n
  have hp2 := preprocess_urls_df_spec df2 url2 c2 h2u h2c h2n
  have hadd := add_exact_match_spec df1.cols c1 df1.rows
    (fun r => extract_domain_and_company (cellStr (colVal df1 url1 r)))
    df2.cols c2 df2.rows
    (fun r => extract_domain_and_company (cellStr (colVal df2 url2 r)))
    h1c h2c h1e2 h1len h2len
  have hm : matcher_tables df1 df2 url1 c1 url2 c2 =
      (⟨(df1.cols ++ [c1]) ++ ["exact_match"],
        df1.rows.map (fun r =>
          (r ++ [some (extract_domain_and_company (cellStr (colVal df1 url1 r)))]) ++
            [exactMatchCell
              (df2.rows.map (fun s => extract_domain_and_company (cellStr (colVal df2 url2 s))))
              (extract_domain_and_company (cellStr (colVal df1 url1 r)))])⟩,
        ⟨df2.cols ++ [c2],
          df2.rows.map (fun r =>
            r ++ [some (extract_domain_and_company (cellStr (colVal df2 url2 r)))])⟩) := by
    simp only [matcher_tables]
    rw [hp1, hp2, hadd]
  rw [hm]
  refine ⟨?_, rfl, ?_, rfl⟩
  · simp
  · simp

/-- Witness for the amended C9 at concrete tables. -/
theorem key_annotation_frame_witness :
    ("url" : String) ∈ (["id", "url"] : List String) ∧
    (matcher_tables ⟨["id", "url"], [[some ("1"), some ("http://example.com")]]⟩
        ⟨["id2", "url2"], [[some ("9"), some ("http://test.com")]]⟩
        "url" "ckey" "url2" "ckey2").2.cols = ["id2", "url2"] ++ ["ckey2"] := by
  have h := key_annotation_frame ⟨["id", "url"], [[some ("1"), some ("http://example.com")]]⟩
    ⟨["id2", "url2"], [[some ("9"), some ("http://test.com")]]⟩ "url" "ckey" "url2" "ckey2"
    (by decide) (by decide) (by decide) (by decide) (by decide) (by decide)
    (by decide) (by decide) (by decide) (by decide)
  exact ⟨by decide, h.2.1⟩

/-! ## Claim C5: invariance of extraction under host prefixing and casing -/

/-- Characters that keep `lenient_netloc` from truncating or stripping: no
path, query, fragment, userinfo or port delimiters and no whitespace. -/
def okHostChar (c : Char) : Bool :=
  !(c == '/') && !(c == '?') && !(c == '#') && !(c == '@') && !(c == ':') && !c.isWhitespace

theorem okHostChar_not_ws {c : Char} (h : okHostChar c = true) : c.isWhitespace = false := by
  rcases hws : c.isWhitespace with _ | _
  · rfl
  · rw [okHostChar, hws] at h
    simp at h

theorem not_mem_of_ok {l : List Char} {x : Char}
    (hall : ∀ c ∈ l, okHostChar c = true) (hx : okHostChar x = false) : x ∉ l := by
  intro hm
  rw [hall x hm] at hx
  cases hx

theorem takeUntilChar_id {x : Char} {l : List Char} (h : x ∉ l) :
    takeUntilChar x l = l := by
  induction l with
  | nil => rfl
  | cons c cs ih =>
    have hcx : (c == x) = false := by
      rcases hb : c == x with _ | _
      · rfl
      · refine absurd ?_ h
        have hcx2 : c = x := beq_iff_eq.mp hb
        rw [← hcx2]
        exact List.mem_cons_self c cs
    simp only [takeUntilChar, hcx, Bool.false_eq_true, if_false]
    rw [ih (fun hm => h (List.mem_cons_of_mem c hm))]

theorem takeWhile_eq_self_of_all {p : Char → Bool} {l : List Char}
    (h : ∀ c ∈ l, p c = true) : l.takeWhile p = l := by
  induction l with
  | nil => rfl
  | cons c cs ih =>
    rw [List.takeWhile_cons, h c (List.mem_cons_self c cs)]
    rw [ih (fun x hx => h x (List.mem_cons_of_mem c hx)), if_pos rfl]

theorem dropWhile_eq_self_of_all {p : Char → Bool} {l : List Char}
    (h : ∀ c ∈ l, p c = false) : l.dropWhile p = l := by
  cases l with
  | nil => rfl
  | cons c cs =>
    rw [List.dropWhile_cons, h c (List.mem_cons_self c cs)]
    simp

theorem afterLastChar_id {x : Char} {l : List Char} (h : x ∉ l) :
    afterLastChar x l = l := by
  rw [afterLastChar, takeWhile_eq_self_of_all, List.reverse_reverse]
  intro c hc
  have hcx : c ≠ x := by
    intro he
    exact h (he ▸ List.mem_reverse.mp hc)
  simp [hcx]

theorem stripEnds_id {l : List Char} (h : ∀ c ∈ l, c.isWhitespace = false) :
    stripEnds l = l := by
  rw [stripEnds, dropWhile_eq_self_of_all h, dropWhile_eq_self_of_all, List.reverse_reverse]
  intro c hc
  exact h c (List.mem_reverse.mp hc)

theorem rstripDots_id {l : List Char} (h : l.getLast? ≠ some '.') :
    rstripDots l = l := by
  rcases hrev : l.reverse with _ | ⟨c, cs⟩
  · have : l = [] := by simpa using hrev
    rw [this]
    rfl
  · have hc : c ≠ '.' := by
      intro he
      apply h
      rw [← List.head?_reverse, hrev, he]
      rfl
    rw [rstripDots, hrev, List.dropWhile_cons]
    simp only [beq_iff_eq, hc]
    rw [if_neg (by simp [hc]), ← hrev, List.reverse_reverse]

theorem isPrefixB_mem {p l : List Char} (h : isPrefixB p l = true) :
    ∀ c ∈ p, c ∈ l := by
  induction p generalizing l with
  | nil => intro c hc; cases hc
  | cons pc ps ih =>
    cases l with
    | nil => cases h
    | cons c cs =>
      rw [isPrefixB, Bool.and_eq_true] at h
      intro x hx
      rcases List.mem_cons.mp hx with rfl | hx
      · rw [beq_iff_eq.mp h.1]
        exact List.mem_cons_self c cs
      · exact List.mem_cons_of_mem c (ih h.2 x hx)

theorem findSubIdx_slash_none {l : List Char} (h : ('/' : Char) ∉ l) :
    findSubIdx ['/', '/'] l = none := by
  induction l with
  | nil => rfl
  | cons c cs ih =>
    have hpre : isPrefixB ['/', '/'] (c :: cs) = false := by
      rcases hb : isPrefixB ['/', '/'] (c :: cs) with _ | _
      · rfl
      · exact absurd (isPrefixB_mem hb '/' (List.mem_cons_self _ _)) h
    simp only [findSubIdx, hpre, Bool.false_eq_true, if_false]
    rw [ih (fun hm => h (List.mem_cons_of_mem c hm))]
    rfl

theorem schemelessUrl_id {l : List Char} (h : ('/' : Char) ∉ l) :
    schemelessUrl l = l := by
  rw [schemelessUrl, findSubIdx_slash_none h]

theorem fixSchemeL_id {l : List Char} (h : ('/' : Char) ∉ l) :
    fixSchemeL l = l := by
  have h1 : isPrefixB (("http://http//").toList) l = false := by
    rcases hb : isPrefixB (("http://http//").toList) l with _ | _
    · rfl
    · exact absurd (isPrefixB_mem hb '/' (by decide)) h
  have h2 : isPrefixB (("https://http//").toList) l = false := by
    rcases hb : isPrefixB (("https://http//").toList) l with _ | _
    · rfl
    · exact absurd (isPrefixB_mem hb '/' (by decide)) h
  rw [fixSchemeL]
  simp only [h1, h2, Bool.false_eq_true, if_false]

theorem lenientNetloc_id {l : List Char}
    (hall : ∀ c ∈ l, okHostChar c = true) (hlast : l.getLast? ≠ some '.') :
    lenientNetloc l = l := by
  have hs : ('/' : Char) ∉ l := not_mem_of_ok hall (by decide)
  have hq : ('?' : Char) ∉ l := not_mem_of_ok hall (by decide)
  have hh : ('#' : Char) ∉ l := not_mem_of_ok hall (by decide)
  have ha : ('@' : Char) ∉ l := not_mem_of_ok hall (by decide)
  have hc : (':' : Char) ∉ l := not_mem_of_ok hall (by decide)
  have hw : ∀ c ∈ l, c.isWhitespace = false := fun c hm => okHostChar_not_ws (hall c hm)
  simp only [lenientNetloc]
  rw [schemelessUrl_id hs, takeUntilChar_id hs, takeUntilChar_id hq, takeUntilChar_id hh,
    afterLastChar_id ha, takeUntilChar_id hc, stripEnds_id hw, rstripDots_id hlast]

theorem splitC_ne_nil (sep : Char) (l : List Char) : splitC sep l ≠ [] := by
  induction l with
  | nil => simp [splitC]
  | cons c cs ih =>
    rw [splitC]
    by_cases hc : (c == sep) = true
    · simp [hc]
    · simp only [hc, Bool.false_eq_true, if_false]
      rcases hsp : splitC sep cs with _ | ⟨s, ss⟩
      · exact absurd hsp ih
      · simp [List.modifyHead]

theorem foldr_max_le {xs : List Nat} {n : Nat} (h : ∀ x ∈ xs, x ≤ n) :
    xs.foldr Nat.max 0 ≤ n := by
  induction xs with
  | nil => exact Nat.zero_le n
  | cons x rest ih =>
    rw [List.foldr_cons]
    exact Nat.max_le.mpr ⟨h x (List.mem_cons_self x rest), ih (fun y hy => h y (List.mem_cons_of_mem x hy))⟩

theorem suffixLen_le (ls : List (List Char)) : suffixLen ls ≤ ls.length := by
  rw [suffixLen]
  apply foldr_max_le
  intro x hx
  obtain ⟨e, he, rfl⟩ := List.mem_map.mp hx
  have hsuf := (List.isSuffixOf_iff_suffix).mp (List.mem_filter.mp he).2
  have := hsuf.length_le
  rwa [List.length_map] at this

theorem suffixLen_cons (w : List Char) (ls : List (List Char))
    (hw : ∀ e ∈ pslSuffixes, e.head? ≠ some (lowerL w)) :
    suffixLen (w :: ls) = suffixLen ls := by
  rw [suffixLen, suffixLen]
  have hfilter : pslSuffixes.filter (fun e => e.isSuffixOf ((w :: ls).map lowerL)) =
      pslSuffixes.filter (fun e => e.isSuffixOf (ls.map lowerL)) := by
    apply List.filter_congr
    intro e he
    rw [List.map_cons]
    have hiff : (e.isSuffixOf (lowerL w :: ls.map lowerL) = true) ↔
        (e.isSuffixOf (ls.map lowerL) = true) := by
      rw [List.isSuffixOf_iff_suffix, List.isSuffixOf_iff_suffix, List.suffix_cons_iff]
      constructor
      · rintro (he2 | h2)
        · exact absurd (by rw [he2]; rfl) (hw e he)
        · exact h2
      · intro h2
        exact Or.inr h2
    rcases hA : e.isSuffixOf (lowerL w :: ls.map lowerL) with _ | _ <;>
      rcases hB : e.isSuffixOf (ls.map lowerL) with _ | _ <;> simp_all
  rw [hfilter]

theorem stdCompanyName_cong (e1 e2 : Extracted)
    (hd : e1.domain = e2.domain) (hs : e1.suffix = e2.suffix)
    (hcc : (countryCodesList.map String.toList).contains e1.domain = false)
    (hcs : (commonSuffixesList.map String.toList).contains e1.domain = false) :
    stdCompanyName e1 = stdCompanyName e2 := by
  have hcc2 : (countryCodesList.map String.toList).contains e2.domain = false := hd ▸ hcc
  have hcs2 : (commonSuffixesList.map String.toList).contains e2.domain = false := hd ▸ hcs
  simp only [stdCompanyName, hd, hs, hcc, hcs, hcc2, hcs2]
  simp

theorem extractL_std (u : List Char)
    (hsoc : (socialHostsList.map String.toList).contains
      (tldExtractL (fixSchemeL u)).domain = false) :
    extractL u = stdCompanyName (tldExtractL (fixSchemeL u)) := by
  have hneg : ¬((socialHostsList.map String.toList).contains
      (tldExtractL (fixSchemeL u)).domain = true) := by
    intro hc
    rw [hc] at hsoc
    cases hsoc
  simp only [extractL]
  rw [if_neg hneg]

theorem tld_prefix_components (h : List Char) (wlab : List Char)
    (hchars : ∀ c ∈ h, okHostChar c = true)
    (hlast : h.getLast? ≠ some '.')
    (hdom : (tldExtractL h).domain ≠ [])
    (hprechars : ∀ c ∈ wlab ++ ['.'], okHostChar c = true)
    (hsplit : splitC '.' ((wlab ++ ['.']) ++ h) = wlab :: splitC '.' h)
    (hw : ∀ e ∈ pslSuffixes, e.head? ≠ some (lowerL wlab))
    (hne : h ≠ []) :
    (tldExtractL ((wlab ++ ['.']) ++ h)).domain = (tldExtractL h).domain ∧
    (tldExtractL ((wlab ++ ['.']) ++ h)).suffix = (tldExtractL h).suffix := by
  have hall2 : ∀ c ∈ (wlab ++ ['.']) ++ h, okHostChar c = true := by
    intro c hc
    rcases List.mem_append.mp hc with hc | hc
    · exact hprechars c hc
    · exact hchars c hc
  have hlast2 : ((wlab ++ ['.']) ++ h).getLast? ≠ some '.' := by
    rw [List.getLast?_append_of_ne_nil _ hne]
    exact hlast
  have hnet1 : lenientNetloc ((wlab ++ ['.']) ++ h) = (wlab ++ ['.']) ++ h :=
    lenientNetloc_id hall2 hlast2
  have hnet0 : lenientNetloc h = h := lenientNetloc_id hchars hlast
  have hkc := suffixLen_cons wlab (splitC '.' h) hw
  have hkn := suffixLen_le (splitC '.' h)
  have hn1 : 1 ≤ (splitC '.' h).length := List.length_pos.mpr (splitC_ne_nil '.' h)
  have hsi : (splitC '.' h).length - suffixLen (splitC '.' h) ≠ 0 := by
    intro h0
    apply hdom
    simp only [tldExtractL]
    rw [hnet0, h0]
    rfl
  obtain ⟨j, hj⟩ : ∃ j, (splitC '.' h).length - suffixLen (splitC '.' h) = j + 1 :=
    ⟨(splitC '.' h).length - suffixLen (splitC '.' h) - 1, by omega⟩
  have ha : (splitC '.' h).length + 1 - suffixLen (splitC '.' h) =
      ((splitC '.' h).length - suffixLen (splitC '.' h)) + 1 := by omega
  constructor
  · simp only [tldExtractL]
    rw [hnet1, hnet0, hsplit, hkc, List.length_cons, ha, hj]
    simp only [Nat.add_sub_cancel]
    rw [if_neg (by simp), if_neg (by simp), List.getD_cons_succ]
  · simp only [tldExtractL]
    rw [hnet1, hnet0, hsplit, hkc, List.length_cons, ha, hj]
    rw [List.drop_succ_cons]

theorem extractL_prefix_label (h : List Char) (wlab : List Char)
    (hchars : ∀ c ∈ h, okHostChar c = true)
    (hlast : h.getLast? ≠ some '.')
    (hdom : (tldExtractL h).domain ≠ [])
    (hsoc : (socialHostsList.map String.toList).contains (tldExtractL h).domain = false)
    (hcc : (countryCodesList.map String.toList).contains (tldExtractL h).domain = false)
    (hcs : (commonSuffixesList.map String.toList).contains (tldExtractL h).domain = false)
    (hprechars : ∀ c ∈ wlab ++ ['.'], okHostChar c = true)
    (hsplit : splitC '.' ((wlab ++ ['.']) ++ h) = wlab :: splitC '.' h)
    (hw : ∀ e ∈ pslSuffixes, e.head? ≠ some (lowerL wlab)) :
    extractL ((wlab ++ ['.']) ++ h) = extractL h := by
  have hne : h ≠ [] := by
    intro h0
    apply hdom
    rw [h0]
    decide
  have hcomp := tld_prefix_components h wlab hchars hlast hdom hprechars hsplit hw hne
  have hall2 : ∀ c ∈ (wlab ++ ['.']) ++ h, okHostChar c = true := by
    intro c hc
    rcases List.mem_append.mp hc with hc | hc
    · exact hprechars c hc
    · exact hchars c hc
  have hs_pre : ('/' : Char) ∉ (wlab ++ ['.']) ++ h := not_mem_of_ok hall2 (by decide)
  have hs_h : ('/' : Char) ∉ h := not_mem_of_ok hchars (by decide)
  have hfix1 : fixSchemeL ((wlab ++ ['.']) ++ h) = (wlab ++ ['.']) ++ h := fixSchemeL_id hs_pre
  have hfix0 : fixSchemeL h = h := fixSchemeL_id hs_h
  have hsoc1 : (socialHostsList.map String.toList).contains
      (tldExtractL (fixSchemeL ((wlab ++ ['.']) ++ h))).domain = false := by
    rw [hfix1, hcomp.1]
    exact hsoc
  have hsoc0 : (socialHostsList.map String.toList).contains
      (tldExtractL (fixSchemeL h)).domain = false := by
    rw [hfix0]
    exact hsoc
  rw [extractL_std _ hsoc1, extractL_std _ hsoc0, hfix1, hfix0]
  exact stdCompanyName_cong _ _ hcomp.1 hcomp.2
    (by rw [hcomp.1]; exact hcc) (by rw [hcomp.1]; exact hcs)

/-- Counterexample to C5 as stated: extraction is not invariant to `www.`
prefixing of the host (the social fallback path embeds the whole URL) nor
to case variation (the social-host test at line 109 of `preprocessor.py` is
case-sensitive). -/
theorem www_case_invariance_counterexample :
    extract_domain_and_company ("http://www.linkedin.com") ≠
      extract_domain_and_company ("http://linkedin.com") ∧
    extract_domain_and_company ("http://LINKEDIN.com/company/acme") ≠
      extract_domain_and_company ("http://linkedin.com/company/acme") := by
  exact ⟨by decide, by decide⟩

/-- C5 amended: `extract("HTTP://WWW.Example.com") ==
extract("http://example.com")` holds; and for scheme-less host inputs with
no delimiter or whitespace characters, no trailing dot, and whose domain
label is non-empty and not (case-sensitively) a social host, country-code
token or platform-suffix token, extraction is invariant to `www.` and
`web.` prefixing of the host. Full generality fails (see the
counterexample). -/
theorem www_prefix_invariance (h : List Char)
    (hchars : ∀ c ∈ h, okHostChar c = true)
    (hlast : h.getLast? ≠ some '.')
    (hdom : (tldExtractL h).domain ≠ [])
    (hsoc : (socialHostsList.map String.toList).contains (tldExtractL h).domain = false)
    (hcc : (countryCodesList.map String.toList).contains (tldExtractL h).domain = false)
    (hcs : (commonSuffixesList.map String.toList).contains (tldExtractL h).domain = false) :
    extract_domain_and_company ⟨'w' :: 'w' :: 'w' :: '.' :: h⟩ =
      extract_domain_and_company ⟨h⟩ ∧
    extract_domain_and_company ⟨'w' :: 'e' :: 'b' :: '.' :: h⟩ =
      extract_domain_and_company ⟨h⟩ ∧
    extract_domain_and_company ("HTTP://WWW.Example.com") =
      extract_domain_and_company ("http://example.com") := by
  refine ⟨?_, ?_, by decide⟩
  · have hsplit : splitC '.' ((("www").toList ++ ['.']) ++ h) =
        ("www").toList :: splitC '.' h := rfl
    have hinv := extractL_prefix_label h (("www").toList) hchars hlast hdom hsoc hcc hcs
      (by decide) hsplit (by decide)
    exact congrArg (fun l => (⟨l⟩ : String)) hinv
  · have hsplit : splitC '.' ((("web").toList ++ ['.']) ++ h) =
        ("web").toList :: splitC '.' h := rfl
    have hinv := extractL_prefix_label h (("web").toList) hchars hlast hdom hsoc hcc hcs
      (by decide) hsplit (by decide)
    exact congrArg (fun l => (⟨l⟩ : String)) hinv

set_option maxHeartbeats 2000000 in
/-- Witness for the amended C5 at the concrete host `example.com`. -/
theorem www_prefix_invariance_witness :
    ((tldExtractL (("example.com").toList)).domain ≠ []) ∧
    (extract_domain_and_company ⟨'w' :: 'w' :: 'w' :: '.' :: ("example.com").toList⟩ =
        extract_domain_and_company ⟨("example.com").toList⟩ ∧
      extract_domain_and_company ⟨'w' :: 'e' :: 'b' :: '.' :: ("example.com").toList⟩ =
        extract_domain_and_company ⟨("example.com").toList⟩ ∧
      extract_domain_and_company ("HTTP://WWW.Example.com") =
        extract_domain_and_company ("http://example.com")) :=
  ⟨by decide, www_prefix_invariance (("example.com").toList) (by decide) (by decide)
    (by decide) (by decide) (by decide) (by decide)⟩
